import Mathlib

/-!
# Verification of the PyUNIxMD surface-hopping transition engine

Shallow embedding of the fewest-switches surface-hopping engine of
`src/mqc/sh.py` (class `SH`) and its cavity-coupled variant
`src/mqc_qed/sh.py`, together with theorems settling the frozen claims
about it.

Modelling conventions:
* Python floats are modelled by exact numbers: the probability pipeline
  (`hop_prob`, `hop_check`) uses only field operations and is embedded
  over `ℚ`; the rescaling solver (`evaluate_hop`) needs square roots and
  is embedded over `ℝ`; the EDC decoherence corrector uses complex
  coefficients (`ℂ`).
* Arrays indexed by state or atom are total functions `ℕ → _`; loops
  `for ist in range(n)` become folds/sums over `List.range n` or
  `Finset.range n`, preserving iteration order where it matters.
* The model covers the QM region: the atom count `nat` plays the role of
  `nat_qm`, and velocity updates touch exactly the indices `< nat`,
  mirroring the `vel[0:nat_qm]` slices of the source.
* Event-log strings are replaced by an inductive tag per distinct
  `self.event["HOP"].append(...)` site; claims only count/identify lines.
-/

namespace UnixMD

/-- Velocity rescaling method after a successful hop
(`vel_rescale` / `hop_rescale` in the source). -/
inductive VelRescale
  | energy
  | velocity
  | momentum
  | augment
deriving DecidableEq

/-- Velocity treatment after a frustrated hop (`vel_reject` / `hop_reject`). -/
inductive VelReject
  | keep
  | reverse
deriving DecidableEq

/-- One entry of `self.event["HOP"]`, one constructor per `append` site in
`evaluate_hop` of `src/mqc/sh.py` (lines 308, 311, 314, 323, 355) and the
trivial-crossing accept line of `src/mqc_qed/sh.py` (line 421). -/
inductive HopEvent
  | rejectKinetic
  | rejectKeep
  | rejectReverse
  | acceptFallback
  | acceptHop
  | trivialHop
deriving DecidableEq

/-! ## Probability calculator (`SH.hop_prob`, src/mqc/sh.py lines 215-243) -/

/-- Raw (unclamped) hopping probability of candidate `ist` from running state
`r`: `-2 * rho.real[ist, r] * nacme[ist, r] * dt / rho.real[r, r]`
(line 232-233).  Note the division by `rhoRe r r` is unconditional: the
source has no epsilon guard here. -/
def shProbRaw (rhoRe nacme : ℕ → ℕ → ℚ) (dt : ℚ) (r ist : ℕ) : ℚ :=
  -2 * rhoRe ist r * nacme ist r * dt / rhoRe r r

/-- The clamped probability vector: entries are set for `ist ≠ r` below `nst`
and negative raw values are clamped to `0` (lines 230-237). -/
def shProbClamped (nst r : ℕ) (rhoRe nacme : ℕ → ℕ → ℚ) (dt : ℚ) : ℕ → ℚ :=
  fun ist =>
    if ist = r ∨ ¬ ist < nst then 0
    else max (shProbRaw rhoRe nacme dt r ist) 0

/-- Cumulative probability vector: `acc_prob[j] = Σ_{ist < j} prob[ist]`
(the running `accum` of lines 228-238; the active state contributes `0`,
so its interval is empty). -/
def shAccOf (p : ℕ → ℚ) : ℕ → ℚ :=
  fun j => ∑ ist in Finset.range j, p ist

/-- The total hop probability `psum = acc_prob[nst]` of line 239. -/
def shPsum (nst r : ℕ) (rhoRe nacme : ℕ → ℕ → ℚ) (dt : ℚ) : ℚ :=
  shAccOf (shProbClamped nst r rhoRe nacme dt) nst

/-- The `hop_prob` routine of `src/mqc/sh.py`: probability and cumulative
vectors, renormalized by `1/psum` when the total `psum = acc_prob[nst]`
exceeds `1` (lines 239-243).  Returns `(prob, acc_prob)`. -/
def shProb (nst r : ℕ) (rhoRe nacme : ℕ → ℕ → ℚ) (dt : ℚ) :
    (ℕ → ℚ) × (ℕ → ℚ) :=
  if 1 < shPsum nst r rhoRe nacme dt then
    (fun i => shProbClamped nst r rhoRe nacme dt i / shPsum nst r rhoRe nacme dt,
     fun j => shAccOf (shProbClamped nst r rhoRe nacme dt) j /
       shPsum nst r rhoRe nacme dt)
  else
    (shProbClamped nst r rhoRe nacme dt,
     shAccOf (shProbClamped nst r rhoRe nacme dt))

/-- Probability vector of the `l_trivial` branch of `SH.hop_prob` in
`src/mqc_qed/sh.py` (lines 291-299): `1` exactly on the flagged
`trivial_state` `t` when it differs from the running state `r`. -/
def trivialProbVec (pst r t : ℕ) : ℕ → ℚ :=
  fun ist => if ist < pst ∧ ¬ ist = r ∧ ist = t then 1 else 0

/-- The `l_trivial` branch of `SH.hop_prob` in `src/mqc_qed/sh.py`
(lines 290-304), followed by the same `psum > 1` renormalization. -/
def hopProbTrivial (pst r t : ℕ) : (ℕ → ℚ) × (ℕ → ℚ) :=
  if 1 < shAccOf (trivialProbVec pst r t) pst then
    (fun i => trivialProbVec pst r t i / shAccOf (trivialProbVec pst r t) pst,
     fun j => shAccOf (trivialProbVec pst r t) j /
       shAccOf (trivialProbVec pst r t) pst)
  else
    (trivialProbVec pst r t, shAccOf (trivialProbVec pst r t))

/-! ## State selector (`SH.hop_check`, src/mqc/sh.py lines 245-257;
identical loop in src/mqc_qed/sh.py lines 306-318)

The loop state is `(l_hop, rstate, bo_list[0])`.  Note the source compares
`ist` against the *mutating* `self.rstate`, so the skip test uses the
current second component. -/

/-- One iteration of the `hop_check` loop body (lines 252-257). -/
def hopCheckStep (acc : ℕ → ℚ) (rand : ℚ) (st : Bool × ℕ × ℕ) (ist : ℕ) :
    Bool × ℕ × ℕ :=
  if ist = st.2.1 then st
  else if acc ist < rand ∧ rand ≤ acc (ist + 1) then (true, ist, ist)
  else st

/-- The `hop_check` routine: scan candidates `0, …, nst-1` in order, with
initial state `(False, r, b0)` (`l_hop` was reset by `hop_prob`; `b0` is the
incoming `bo_list[0]`). -/
def hopCheck (nst r b0 : ℕ) (acc : ℕ → ℚ) (rand : ℚ) : Bool × ℕ × ℕ :=
  (List.range nst).foldl (hopCheckStep acc rand) (false, r, b0)

/-- Candidate `i`'s interval contains the draw: `acc[i] < rand ≤ acc[i+1]`. -/
def shMatched (acc : ℕ → ℚ) (rand : ℚ) (i : ℕ) : Prop :=
  acc i < rand ∧ rand ≤ acc (i + 1)

instance (acc : ℕ → ℚ) (rand : ℚ) (i : ℕ) : Decidable (shMatched acc rand i) :=
  inferInstanceAs (Decidable (_ ∧ _))

lemma shMatched_unique {acc : ℕ → ℚ} {rand : ℚ}
    (hmono : ∀ i, acc i ≤ acc (i + 1)) {i j : ℕ} (hij : i < j)
    (hi : shMatched acc rand i) (hj : shMatched acc rand j) : False := by
  have hm : Monotone acc := monotone_nat_of_le_succ hmono
  have h1 : acc (i + 1) ≤ acc j := hm hij
  exact absurd (lt_of_le_of_lt (hi.2.trans h1) hj.1) (lt_irrefl rand)

lemma shMatched_not_active {acc : ℕ → ℚ} {rand : ℚ} {r : ℕ}
    (hr : acc (r + 1) ≤ acc r) : ¬ shMatched acc rand r := by
  intro h
  exact absurd (lt_of_le_of_lt (h.2.trans hr) h.1) (lt_irrefl rand)

lemma hopCheck_of_none {nst r b0 : ℕ} {acc : ℕ → ℚ} {rand : ℚ}
    (h : ∀ i, i < nst → ¬ shMatched acc rand i) :
    hopCheck nst r b0 acc rand = (false, r, b0) := by
  induction nst with
  | zero => rfl
  | succ n ih =>
    have hn : ∀ i, i < n → ¬ shMatched acc rand i := fun i hi =>
      h i (Nat.lt_succ_of_lt hi)
    have hprev : hopCheck n r b0 acc rand = (false, r, b0) := ih hn
    unfold hopCheck at hprev ⊢
    rw [List.range_succ, List.foldl_append, hprev]
    simp only [List.foldl_cons, List.foldl_nil, hopCheckStep]
    by_cases hreq : n = r
    · simp [hreq]
    · simp only [hreq, if_false]
      have := h n (Nat.lt_succ_self n)
      rw [if_neg (by exact fun hc => this ⟨hc.1, hc.2⟩)]

lemma hopCheck_of_matched {nst r b0 : ℕ} {acc : ℕ → ℚ} {rand : ℚ}
    (hmono : ∀ i, acc i ≤ acc (i + 1)) (hr : acc (r + 1) ≤ acc r)
    {i : ℕ} (hi : i < nst) (hm : shMatched acc rand i) :
    hopCheck nst r b0 acc rand = (true, i, i) := by
  induction nst with
  | zero => exact absurd hi (Nat.not_lt_zero i)
  | succ n ih =>
    by_cases hin : i = n
    · subst hin
      have hnone : ∀ j, j < i → ¬ shMatched acc rand j := fun j hj hmj =>
        shMatched_unique hmono hj hmj hm
      have hprev : hopCheck i r b0 acc rand = (false, r, b0) :=
        hopCheck_of_none hnone
      unfold hopCheck at hprev ⊢
      rw [List.range_succ, List.foldl_append, hprev]
      simp only [List.foldl_cons, List.foldl_nil, hopCheckStep]
      have hir : ¬ i = r := fun hc => shMatched_not_active hr (hc ▸ hm)
      simp only [hir, if_false]
      rw [if_pos ⟨hm.1, hm.2⟩]
    · have hilt : i < n := Nat.lt_of_le_of_ne (Nat.lt_succ_iff.mp hi) hin
      have hprev : hopCheck n r b0 acc rand = (true, i, i) := ih hilt
      unfold hopCheck at hprev ⊢
      rw [List.range_succ, List.foldl_append, hprev]
      simp only [List.foldl_cons, List.foldl_nil, hopCheckStep]
      have hni : ¬ n = i := fun hc => hin (hc ▸ rfl)
      simp only [hni, if_false]
      have hnm : ¬ shMatched acc rand n := fun hmn =>
        shMatched_unique hmono hilt hm hmn
      rw [if_neg (by exact fun hc => hnm ⟨hc.1, hc.2⟩)]

lemma hopCheck_cases (nst r b0 : ℕ) (acc : ℕ → ℚ) (rand : ℚ) :
    hopCheck nst r b0 acc rand = (false, r, b0) ∨
    ∃ j, j < nst ∧ shMatched acc rand j ∧
      hopCheck nst r b0 acc rand = (true, j, j) := by
  induction nst with
  | zero => exact Or.inl rfl
  | succ n ih =>
    have hstep : hopCheck (n + 1) r b0 acc rand =
        hopCheckStep acc rand (hopCheck n r b0 acc rand) n := by
      unfold hopCheck
      rw [List.range_succ, List.foldl_append]
      simp only [List.foldl_cons, List.foldl_nil]
    rcases ih with hfalse | ⟨j, hj, hmj, heq⟩
    · rw [hstep, hfalse]
      unfold hopCheckStep
      by_cases hnr : n = r
      · exact Or.inl (by simp [hnr])
      · simp only [hnr, if_false]
        by_cases hmn : acc n < rand ∧ rand ≤ acc (n + 1)
        · rw [if_pos hmn]
          exact Or.inr ⟨n, Nat.lt_succ_self n, ⟨hmn.1, hmn.2⟩, rfl⟩
        · rw [if_neg hmn]
          exact Or.inl rfl
    · rw [hstep, heq]
      unfold hopCheckStep
      by_cases hnj : n = j
      · exact Or.inr ⟨j, Nat.lt_succ_of_lt hj, hmj, by simp [hnj]⟩
      · simp only [hnj, if_false]
        by_cases hmn : acc n < rand ∧ rand ≤ acc (n + 1)
        · rw [if_pos hmn]
          exact Or.inr ⟨n, Nat.lt_succ_self n, ⟨hmn.1, hmn.2⟩, rfl⟩
        · rw [if_neg hmn]
          exact Or.inr ⟨j, Nat.lt_succ_of_lt hj, hmj, rfl⟩

/-! ## Rescaling solver and frustration policy
(`SH.evaluate_hop`, src/mqc/sh.py lines 259-355; the identical non-trivial
body of src/mqc_qed/sh.py lines 320-421)

State mutated or read by `evaluate_hop`, over `ℝ`.  `nat` is the QM atom
count (`nat_qm`); `nac i j atom k` is the coupling tensor
`self.mol.nac[i, j, atom, k]`; `energies i` is `self.mol.states[i].energy`.
The routine never touches the density matrix, so it is not part of this
state. -/

structure SHState where
  nat : ℕ
  mass : ℕ → ℝ
  nac : ℕ → ℕ → ℕ → ℕ → ℝ
  energies : ℕ → ℝ
  vel : ℕ → ℕ → ℝ
  ekinQm : ℝ
  rstate : ℕ
  rstateOld : ℕ
  lHop : Bool
  lReject : Bool
  boList0 : ℕ
  events : List HopEvent

/-- Engine configuration fixed at construction.  The threshold `eps` is
imported in the source from the `misc` module, which is not part of this
repository snapshot; modelled from the spec: "a small epsilon" — kept as an
abstract positive parameter, since no claim depends on its value. -/
structure SHConfig where
  velRescale : VelRescale
  velReject : VelReject
  eps : ℝ

/-- Three-component dot product `Σ_k f k * g k` (the `axis=1` sums of the
source act on the Cartesian components `0, 1, 2`). -/
def dot3 (f g : ℕ → ℝ) : ℝ := ∑ k in Finset.range 3, f k * g k

/-- Kinetic energy of the QM region, as recomputed by
`self.mol.update_kinetic()`: `Σ_atom (1/2) m |v|²`. -/
noncomputable def kineticQm (nat : ℕ) (mass : ℕ → ℝ) (vel : ℕ → ℕ → ℝ) : ℝ :=
  ∑ i in Finset.range nat, 1 / 2 * mass i * dot3 (vel i) (vel i)

/-- Potential difference between hopping states:
`states[rstate].energy - states[rstate_old].energy` (line 267). -/
def potDiff (s : SHState) : ℝ := s.energies s.rstate - s.energies s.rstateOld

/-- The quadratic data `(a, b, det)` of lines 270-287.  All three default to
`1.` and are overwritten per rescaling mode; `c = 2 * pot_diff` is inlined
into `det = b² - 4ac`.  The coupling vector is `nac[rstate_old, rstate]`. -/
noncomputable def quadCoeffs (cfg : SHConfig) (s : SHState) : ℝ × ℝ × ℝ :=
  let d := s.nac s.rstateOld s.rstate
  match cfg.velRescale with
  | .energy => (1, 1, 1)
  | .velocity =>
      let a := ∑ i in Finset.range s.nat, s.mass i * dot3 (d i) (d i)
      let b := 2 * ∑ i in Finset.range s.nat, s.mass i * dot3 (d i) (s.vel i)
      (a, b, b ^ 2 - 4 * a * (2 * potDiff s))
  | .momentum =>
      let a := ∑ i in Finset.range s.nat, 1 / s.mass i * dot3 (d i) (d i)
      let b := 2 * ∑ i in Finset.range s.nat, dot3 (d i) (s.vel i)
      (a, b, b ^ 2 - 4 * a * (2 * potDiff s))
  | .augment =>
      let a := ∑ i in Finset.range s.nat, 1 / s.mass i * dot3 (d i) (d i)
      let b := 2 * ∑ i in Finset.range s.nat, dot3 (d i) (s.vel i)
      (a, b, b ^ 2 - 4 * a * (2 * potDiff s))

/-- The frustration decision of lines 289-303: the default `False` is set by
any of the three reject rules and finally forced back to `False` in
'augment' mode when the kinetic energy strictly exceeds the gap. -/
def hopRejected (cfg : SHConfig) (s : SHState) : Prop :=
  ((cfg.velRescale = VelRescale.energy ∧ s.ekinQm < cfg.eps) ∨
     s.ekinQm < potDiff s ∨ (quadCoeffs cfg s).2.2 < 0) ∧
  ¬ (cfg.velRescale = VelRescale.augment ∧ potDiff s < s.ekinQm)

/-- The velocity update block of lines 331-348 (minus its outer
`keep ∧ reject` guard), applied to the scaling factor `x`.  In the source
it runs after the running state has possibly been restored, so the coupling
direction is taken from the *current* `rstate` — the caller passes the
matching pair below. -/
noncomputable def rescaleVel (mode : VelRescale) (x det pd ekin : ℝ)
    (nat : ℕ) (mass : ℕ → ℝ) (d : ℕ → ℕ → ℝ) (vel : ℕ → ℕ → ℝ) :
    ℕ → ℕ → ℝ :=
  match mode with
  | .energy => fun i k => if i < nat then x * vel i k else vel i k
  | .velocity => fun i k => if i < nat then vel i k + x * d i k else vel i k
  | .momentum =>
      fun i k => if i < nat then vel i k + x * d i k / mass i else vel i k
  | .augment =>
      if 0 < det ∨ ekin < pd then
        fun i k => if i < nat then vel i k + x * d i k / mass i else vel i k
      else fun i k => if i < nat then x * vel i k else vel i k

open Classical in
/-- Events recorded for a frustrated hop (lines 305-314): the kinetic-energy
line when `ekin_qm < pot_diff`, followed by the line of the configured
rejection policy. -/
noncomputable def rejEvents (cfg : SHConfig) (s : SHState) : List HopEvent :=
  (if s.ekinQm < potDiff s then [HopEvent.rejectKinetic] else []) ++
    (match cfg.velReject with
      | .keep => [HopEvent.rejectKeep]
      | .reverse => [HopEvent.rejectReverse])

/-- Velocities after a frustrated hop: untouched for "keep" (the rescale
block of lines 331-348 is skipped); for "reverse", rescaled with
`x = -b/a` (line 315).  The running state was restored at line 318 before
the rescale block reads `nac[self.rstate_old, self.rstate]`, so the
direction is the diagonal element `nac[rstate_old, rstate_old]`. -/
noncomputable def rejVel (cfg : SHConfig) (s : SHState) : ℕ → ℕ → ℝ :=
  match cfg.velReject with
  | .keep => s.vel
  | .reverse =>
      rescaleVel cfg.velRescale
        (-(quadCoeffs cfg s).2.1 / (quadCoeffs cfg s).1)
        (quadCoeffs cfg s).2.2 (potDiff s) s.ekinQm
        s.nat s.mass (s.nac s.rstateOld s.rstateOld) s.vel

/-- The accepted-branch test of line 321: isotropic factor for "energy"
mode, or for "augment" with negative discriminant. -/
def isotropicAccept (cfg : SHConfig) (s : SHState) : Prop :=
  cfg.velRescale = VelRescale.energy ∨
    ((quadCoeffs cfg s).2.2 < 0 ∧ cfg.velRescale = VelRescale.augment)

open Classical in
/-- The accepted-hop scaling factor `x` (lines 321-329): isotropic
`sqrt(1 - pot_diff/ekin_qm)`, otherwise the quadratic root sharing the
sign convention of `b`. -/
noncomputable def accFactor (cfg : SHConfig) (s : SHState) : ℝ :=
  if isotropicAccept cfg s then Real.sqrt (1 - potDiff s / s.ekinQm)
  else if (quadCoeffs cfg s).2.1 < 0 then
    (-(quadCoeffs cfg s).2.1 - Real.sqrt (quadCoeffs cfg s).2.2) /
      (2 * (quadCoeffs cfg s).1)
  else
    (-(quadCoeffs cfg s).2.1 + Real.sqrt (quadCoeffs cfg s).2.2) /
      (2 * (quadCoeffs cfg s).1)

open Classical in
/-- Event recorded on the accepted branch (lines 322-323): the fallback
note, only when the isotropic branch was entered with `det < 0`. -/
noncomputable def accEvents (cfg : SHConfig) (s : SHState) : List HopEvent :=
  if isotropicAccept cfg s ∧ (quadCoeffs cfg s).2.2 < 0 then
    [HopEvent.acceptFallback]
  else []

/-- Velocities after an accepted hop: the rescale block of lines 331-348
applied with the accepted factor and the coupling direction
`nac[rstate_old, rstate]`. -/
noncomputable def accVel (cfg : SHConfig) (s : SHState) : ℕ → ℕ → ℝ :=
  rescaleVel cfg.velRescale (accFactor cfg s) (quadCoeffs cfg s).2.2
    (potDiff s) s.ekinQm s.nat s.mass (s.nac s.rstateOld s.rstate) s.vel

open Classical in
/-- Body of `evaluate_hop` executed when `l_hop` is set (lines 266-351):
frustration decision, event recording, state restore-on-reject, velocity
rescaling, and the `update_kinetic()` refresh of the kinetic energy. -/
noncomputable def hopBody (cfg : SHConfig) (s : SHState) : SHState :=
  if hopRejected cfg s then
    { s with
      lReject := true
      lHop := false
      rstate := s.rstateOld
      boList0 := s.rstateOld
      vel := rejVel cfg s
      ekinQm := kineticQm s.nat s.mass (rejVel cfg s)
      events := s.events ++ rejEvents cfg s }
  else
    { s with
      lReject := false
      vel := accVel cfg s
      ekinQm := kineticQm s.nat s.mass (accVel cfg s)
      events := s.events ++ accEvents cfg s }

/-- The trailing event record of lines 353-355: an "Accept hopping" line
whenever the (possibly restored) running state differs from the pre-step
state. -/
def recordHopEvent (s : SHState) : SHState :=
  if s.rstate ≠ s.rstateOld then
    { s with events := s.events ++ [HopEvent.acceptHop] }
  else s

/-- The `evaluate_hop` routine of `src/mqc/sh.py` (lines 259-355): the body
runs only under `l_hop`, then the trailing event record. -/
noncomputable def evaluateHop (cfg : SHConfig) (s : SHState) : SHState :=
  recordHopEvent (if s.lHop then hopBody cfg s else s)

/-- The trailing event record of `src/mqc_qed/sh.py` lines 416-421: the
accept line, or the trivial-crossing line when `l_trivial` is set. -/
def recordHopEventQED (lTrivial : Bool) (s : SHState) : SHState :=
  if s.rstate ≠ s.rstateOld then
    { s with events := s.events ++
        [if lTrivial then HopEvent.trivialHop else HopEvent.acceptHop] }
  else s

/-- The `evaluate_hop` routine of `src/mqc_qed/sh.py` (lines 320-421): the
rescaling/frustration body additionally requires `not qed.l_trivial`, and
the trailing record distinguishes trivial-crossing hops. -/
noncomputable def evaluateHopQED (cfg : SHConfig) (lTrivial : Bool)
    (s : SHState) : SHState :=
  recordHopEventQED lTrivial
    (if s.lHop ∧ lTrivial = false then hopBody cfg s else s)

/-! ## Energy-based decoherence correction
(`SH.correct_dec_edc`, src/mqc_qed/sh.py lines 434-456, `elec_object ==
"coefficient"` path)

Coefficients `coef_a` are complex; the stored density-matrix diagonal
`rho_a[rstate, rstate]` is complex in the source but real by the Hermitian
data-model invariant, so the model takes its real value `rhoRR`.  Both
`rho_update` and `rho_update / rho_a[rstate, rstate]` are then real, and
`np.sqrt` on a real-valued complex number is the principal square root
modelled by `csqrtReal`. -/

/-- Principal complex square root of a real number, as computed by
`np.sqrt` on a complex array holding a real value: `√x` for `x ≥ 0` and
`i·√(-x)` for `x < 0`. -/
noncomputable def csqrtReal (x : ℝ) : ℂ :=
  if 0 ≤ x then ((Real.sqrt x : ℝ) : ℂ)
  else Complex.I * ((Real.sqrt (-x) : ℝ) : ℂ)

/-- The decay factor `exp_tau[ist]` of lines 438-439: `1` on the running
state, otherwise `exp(-dt / τ)` with
`τ = (1 + edc_parameter / ekin_qm) / |E_ist - E_rstate|`.  (For degenerate
states `|ΔE| = 0` both numpy — via `τ = inf` — and this model — via
division by zero — give the factor `1`.) -/
noncomputable def edcExpTau (r : ℕ) (energies : ℕ → ℝ) (ekin dt c : ℝ)
    (ist : ℕ) : ℝ :=
  if ist = r then 1
  else Real.exp (-dt / ((1 + c / ekin) / |energies ist - energies r|))

/-- The accumulator `rho_update` of lines 440-448: `1` minus the decayed
populations of all non-running states (`conj(c)·c` has zero imaginary
part, so the source's complex accumulator holds this real value). -/
noncomputable def edcRhoUpdate (pst r : ℕ) (energies : ℕ → ℝ) (coef : ℕ → ℂ)
    (ekin dt c : ℝ) : ℝ :=
  1 - ∑ ist in (Finset.range pst).erase r,
    Complex.normSq (coef ist * ((edcExpTau r energies ekin dt c ist : ℝ) : ℂ))

/-- The updated coefficients: each non-running state decays by its
`exp_tau` factor (line 447) and the running state is rescaled by
`np.sqrt(rho_update / rho_a[rstate, rstate])` (line 450). -/
noncomputable def edcCoef (pst r : ℕ) (energies : ℕ → ℝ) (coef : ℕ → ℂ)
    (ekin dt c rhoRR : ℝ) : ℕ → ℂ :=
  fun ist =>
    if ist = r then
      coef r * csqrtReal (edcRhoUpdate pst r energies coef ekin dt c / rhoRR)
    else if ist < pst then
      coef ist * ((edcExpTau r energies ekin dt c ist : ℝ) : ℂ)
    else coef ist

/-- The density matrix rebuilt from the updated coefficients as outer
products (lines 452-456): `rho_a[i, j] = conj(c_i) * c_j`. -/
noncomputable def edcRho (pst r : ℕ) (energies : ℕ → ℝ) (coef : ℕ → ℂ)
    (ekin dt c rhoRR : ℝ) : ℕ → ℕ → ℂ :=
  fun i j =>
    (starRingEnd ℂ) (edcCoef pst r energies coef ekin dt c rhoRR i) *
      edcCoef pst r energies coef ekin dt c rhoRR j

/-- Total electronic population after the EDC correction:
`Σ_i rho_a[i, i].re` over the `pst` polaritonic states. -/
noncomputable def edcPopulation (pst r : ℕ) (energies : ℕ → ℝ) (coef : ℕ → ℂ)
    (ekin dt c rhoRR : ℝ) : ℝ :=
  ∑ i in Finset.range pst, (edcRho pst r energies coef ekin dt c rhoRR i i).re

/-! ## Routing lemmas for `evaluate_hop` -/

lemma hopBody_of_rejected (cfg : SHConfig) (s : SHState)
    (hrej : hopRejected cfg s) :
    hopBody cfg s =
      { s with
        lReject := true
        lHop := false
        rstate := s.rstateOld
        boList0 := s.rstateOld
        vel := rejVel cfg s
        ekinQm := kineticQm s.nat s.mass (rejVel cfg s)
        events := s.events ++ rejEvents cfg s } := by
  unfold hopBody
  exact if_pos hrej

lemma hopBody_of_accepted (cfg : SHConfig) (s : SHState)
    (hacc : ¬ hopRejected cfg s) :
    hopBody cfg s =
      { s with
        lReject := false
        vel := accVel cfg s
        ekinQm := kineticQm s.nat s.mass (accVel cfg s)
        events := s.events ++ accEvents cfg s } := by
  unfold hopBody
  exact if_neg hacc

lemma recordHopEvent_same (s : SHState) (h : s.rstate = s.rstateOld) :
    recordHopEvent s = s := by
  unfold recordHopEvent
  exact if_neg (fun hc => hc h)

lemma recordHopEvent_diff (s : SHState) (h : s.rstate ≠ s.rstateOld) :
    recordHopEvent s = { s with events := s.events ++ [HopEvent.acceptHop] } := by
  unfold recordHopEvent
  exact if_pos h

lemma recordHopEvent_vel (s : SHState) : (recordHopEvent s).vel = s.vel := by
  unfold recordHopEvent
  split <;> rfl

lemma recordHopEvent_lReject (s : SHState) :
    (recordHopEvent s).lReject = s.lReject := by
  unfold recordHopEvent
  split <;> rfl

lemma recordHopEvent_lHop (s : SHState) :
    (recordHopEvent s).lHop = s.lHop := by
  unfold recordHopEvent
  split <;> rfl

lemma recordHopEvent_rstate (s : SHState) :
    (recordHopEvent s).rstate = s.rstate := by
  unfold recordHopEvent
  split <;> rfl

lemma recordHopEvent_boList0 (s : SHState) :
    (recordHopEvent s).boList0 = s.boList0 := by
  unfold recordHopEvent
  split <;> rfl

lemma recordHopEvent_ekinQm (s : SHState) :
    (recordHopEvent s).ekinQm = s.ekinQm := by
  unfold recordHopEvent
  split <;> rfl

lemma rejVel_keep (cfg : SHConfig) (s : SHState)
    (h : cfg.velReject = VelReject.keep) : rejVel cfg s = s.vel := by
  unfold rejVel
  rw [h]

lemma evaluateHop_of_hop (cfg : SHConfig) (s : SHState) (hhop : s.lHop = true) :
    evaluateHop cfg s = recordHopEvent (hopBody cfg s) := by
  unfold evaluateHop
  rw [hhop]
  rfl

lemma evaluateHop_of_no_hop (cfg : SHConfig) (s : SHState)
    (hhop : s.lHop = false) : evaluateHop cfg s = recordHopEvent s := by
  unfold evaluateHop
  rw [hhop]
  rfl

/-! ## Concrete inputs used by witnesses and counterexamples -/

/-- Engine configured for "energy" rescaling with "keep" rejection. -/
noncomputable def cfgEnKeep : SHConfig :=
  { velRescale := VelRescale.energy, velReject := VelReject.keep, eps := 1 }

/-- Engine configured for "momentum" rescaling with "keep" rejection. -/
noncomputable def cfgMomKeep : SHConfig :=
  { velRescale := VelRescale.momentum, velReject := VelReject.keep, eps := 1 }

/-- Engine configured for "augment" rescaling with "keep" rejection. -/
noncomputable def cfgAugKeep : SHConfig :=
  { velRescale := VelRescale.augment, velReject := VelReject.keep, eps := 1 }

/-- A step on which the selector picked no target: `l_hop` is clear and the
running state equals its pre-step value. -/
noncomputable def sIdle : SHState :=
  { nat := 1
    mass := fun _ => 1
    nac := fun _ _ _ _ => 0
    energies := fun _ => 0
    vel := fun _ _ => 0
    ekinQm := 0
    rstate := 0
    rstateOld := 0
    lHop := false
    lReject := false
    boList0 := 0
    events := [] }

/-- A selected hop `0 → 1` with zero kinetic energy and unit energy gap. -/
noncomputable def sZeroKin : SHState :=
  { nat := 1
    mass := fun _ => 1
    nac := fun _ _ _ k => if k = 0 then 1 else 0
    energies := fun i => if i = 0 then 0 else 1
    vel := fun _ _ => 0
    ekinQm := 0
    rstate := 1
    rstateOld := 0
    lHop := true
    lReject := false
    boList0 := 1
    events := [] }

/-! ## Claim C10 -/

/-- C10: if the state selector picked no target (`l_hop` is false and the
running state equals its pre-step value), `evaluate_hop` is a complete
no-op: every state component — velocities, kinetic energy, running-state
pointer, `bo_list[0]`, flags and the event log — is returned unchanged. -/
theorem C10_no_hop_is_noop (cfg : SHConfig) (s : SHState)
    (hhop : s.lHop = false) (hst : s.rstate = s.rstateOld) :
    evaluateHop cfg s = s := by
  rw [evaluateHop_of_no_hop cfg s hhop]
  exact recordHopEvent_same s hst

/-- Witness for C10 at a concrete idle step. -/
theorem C10_witness : evaluateHop cfgMomKeep sIdle = sIdle :=
  C10_no_hop_is_noop cfgMomKeep sIdle rfl rfl

/-! ## Claim C6 -/

/-- C6: for every frustrated hop, `evaluate_hop` restores the running-state
pointer to its pre-hop value, writes that value back to the caller's
state-index list slot (`bo_list[0]` / `pol_list[0]`), and clears the hop
flag. -/
theorem C6_reject_restores_state (cfg : SHConfig) (s : SHState)
    (hhop : s.lHop = true) (hrej : hopRejected cfg s) :
    (evaluateHop cfg s).rstate = s.rstateOld ∧
    (evaluateHop cfg s).boList0 = s.rstateOld ∧
    (evaluateHop cfg s).lHop = false := by
  rw [evaluateHop_of_hop cfg s hhop, hopBody_of_rejected cfg s hrej,
    recordHopEvent_same _ rfl]
  exact ⟨rfl, rfl, rfl⟩

/-- Witness for C6: a frustrated `0 → 1` hop (zero kinetic energy, "energy"
rescaling) leaves running state `0` in all externally visible slots. -/
theorem C6_witness :
    (evaluateHop cfgEnKeep sZeroKin).rstate = 0 ∧
    (evaluateHop cfgEnKeep sZeroKin).boList0 = 0 ∧
    (evaluateHop cfgEnKeep sZeroKin).lHop = false := by
  have hrej : hopRejected cfgEnKeep sZeroKin := by
    refine ⟨Or.inl ⟨rfl, ?_⟩, ?_⟩
    · show (0 : ℝ) < 1
      norm_num
    · rintro ⟨h1, -⟩
      exact absurd h1 (by decide)
  exact C6_reject_restores_state cfgEnKeep sZeroKin rfl hrej

/-! ## Claim C7 -/

/-- C7: under rejection policy "keep", any frustrated hop leaves the
velocity array unchanged; and in "energy" rescaling mode a selected hop
with QM kinetic energy below the epsilon threshold is always frustrated. -/
theorem C7_keep_leaves_velocity (cfg : SHConfig) (s : SHState)
    (hkeep : cfg.velReject = VelReject.keep) :
    ((evaluateHop cfg s).lReject = true → (evaluateHop cfg s).vel = s.vel) ∧
    (cfg.velRescale = VelRescale.energy → s.lHop = true →
      s.ekinQm < cfg.eps → (evaluateHop cfg s).lReject = true) := by
  constructor
  · intro hlr
    rcases Bool.eq_false_or_eq_true s.lHop with hhop | hhop
    · rw [evaluateHop_of_hop cfg s hhop] at hlr ⊢
      by_cases hrej : hopRejected cfg s
      · rw [hopBody_of_rejected cfg s hrej, recordHopEvent_vel]
        exact rejVel_keep cfg s hkeep
      · rw [hopBody_of_accepted cfg s hrej, recordHopEvent_lReject] at hlr
        exact absurd hlr (by simp)
    · rw [evaluateHop_of_no_hop cfg s hhop, recordHopEvent_vel]
  · intro hen hhop hlt
    have hrej : hopRejected cfg s := by
      refine ⟨Or.inl ⟨hen, hlt⟩, ?_⟩
      rintro ⟨h1, -⟩
      rw [hen] at h1
      exact VelRescale.noConfusion h1
    rw [evaluateHop_of_hop cfg s hhop, hopBody_of_rejected cfg s hrej,
      recordHopEvent_same _ rfl]

/-- Witness for C7: "energy" mode, zero kinetic energy, policy "keep" — the
hop is frustrated and the velocities pass through untouched. -/
theorem C7_witness :
    (evaluateHop cfgEnKeep sZeroKin).lReject = true ∧
    (evaluateHop cfgEnKeep sZeroKin).vel = sZeroKin.vel := by
  have h := C7_keep_leaves_velocity cfgEnKeep sZeroKin rfl
  have h2 : (evaluateHop cfgEnKeep sZeroKin).lReject = true := by
    refine h.2 rfl rfl ?_
    show (0 : ℝ) < 1
    norm_num
  exact ⟨h2, h.1 h2⟩

/-! ## Claim C4 -/

/-- C4: for every cumulative vector (non-decreasing, with an empty interval
at the active state, as `hop_prob` produces) and every draw, the selector
picks candidate `i` exactly when `acc[i] < rand ≤ acc[i+1]`; the candidate
intervals are pairwise disjoint; a draw exactly at `acc[i]` never selects
interval `i`; and when no interval contains the draw, no hop occurs and the
running state and `bo_list[0]` are unchanged. -/
theorem C4_selector_intervals (nst r b0 : ℕ) (acc : ℕ → ℚ) (rand : ℚ)
    (hmono : ∀ i, acc i ≤ acc (i + 1)) (hract : acc (r + 1) ≤ acc r) :
    (∀ i, i < nst →
      (hopCheck nst r b0 acc rand = (true, i, i) ↔
        acc i < rand ∧ rand ≤ acc (i + 1))) ∧
    (∀ i j, i < nst → j < nst → acc i < rand ∧ rand ≤ acc (i + 1) →
      acc j < rand ∧ rand ≤ acc (j + 1) → i = j) ∧
    (∀ i, rand = acc i → ¬ (acc i < rand ∧ rand ≤ acc (i + 1))) ∧
    ((∀ i, i < nst → ¬ (acc i < rand ∧ rand ≤ acc (i + 1))) →
      hopCheck nst r b0 acc rand = (false, r, b0)) := by
  have huniq : ∀ i j, shMatched acc rand i → shMatched acc rand j → i = j := by
    intro i j hi hj
    rcases lt_trichotomy i j with h | h | h
    · exact absurd (shMatched_unique hmono h hi hj) id
    · exact h
    · exact (shMatched_unique hmono h hj hi).elim
  refine ⟨?_, ?_, ?_, ?_⟩
  · intro i hi
    constructor
    · intro heq
      rcases hopCheck_cases nst r b0 acc rand with hfalse | ⟨j, _, hmj, hres⟩
      · rw [hfalse] at heq
        simp at heq
      · rw [hres] at heq
        simp only [Prod.mk.injEq] at heq
        obtain ⟨-, hji, -⟩ := heq
        exact hji ▸ hmj
    · intro hm
      exact hopCheck_of_matched hmono hract hi hm
  · intro i j _ _ hi hj
    exact huniq i j hi hj
  · intro i hrand hm
    rw [hrand] at hm
    exact lt_irrefl _ hm.1
  · exact hopCheck_of_none

/-- A concrete cumulative vector for the selector witness:
`acc = [0, 0, 1]` (two states, the active one is state `0`). -/
def accW : ℕ → ℚ := fun j => if j ≤ 1 then 0 else 1

/-- Witness for C4: with `acc = [0, 0, 1]` and draw `1/2`, candidate `1` is
selected, since `acc[1] < 1/2 ≤ acc[2]`. -/
theorem C4_witness :
    hopCheck 2 0 0 accW (1 / 2) = (true, 1, 1) := by
  have hmono : ∀ i, accW i ≤ accW (i + 1) := by
    intro i
    unfold accW
    by_cases h1 : i ≤ 1
    · by_cases h2 : i + 1 ≤ 1 <;> simp [h1, h2]
    · have h2 : ¬ i + 1 ≤ 1 := by omega
      simp [h1, h2]
  have h := C4_selector_intervals 2 0 0 accW (1 / 2) hmono (by norm_num [accW])
  exact (h.1 1 one_lt_two).mpr (by norm_num [accW])

/-! ## Claim C2 -/

/-- C2 (amended): `hop_prob` has no epsilon guard on the active-state
population.  The division by `rho[r, r]` is performed unconditionally:
whenever the raw quotient `-2·Re rho[i,r]·nacme[i,r]·dt / rho[r,r]` is
positive — no matter how small `rho[r, r]` is — the step's probability for
candidate `i` is positive (both before and after the `psum > 1`
renormalization), not zero. -/
theorem C2_unguarded_division (nst r ist : ℕ) (rhoRe nacme : ℕ → ℕ → ℚ)
    (dt : ℚ) (hlt : ist < nst) (hne : ist ≠ r)
    (hpos : 0 < shProbRaw rhoRe nacme dt r ist) :
    0 < (shProb nst r rhoRe nacme dt).1 ist := by
  have hp : 0 < shProbClamped nst r rhoRe nacme dt ist := by
    unfold shProbClamped
    rw [if_neg]
    · exact lt_max_iff.mpr (Or.inl hpos)
    · rintro (h | h)
      · exact hne h
      · exact h hlt
  unfold shProb
  split_ifs with hsum
  · exact div_pos hp (lt_trans zero_lt_one hsum)
  · exact hp

/-- Active-state population `10⁻³⁰` — far below any sensible epsilon guard
(the spec's "small epsilon"); off-diagonal entries `-1`. -/
def rhoCE : ℕ → ℕ → ℚ := fun i j => if i = 0 ∧ j = 0 then 1 / 10 ^ 30 else -1

/-- Counterexample to C2 as stated: with active-state population `10⁻³⁰`
(below any small epsilon) the probability vector is not all zeros — the
division is performed and candidate `1` even ends up with probability `1`
after renormalization. -/
theorem C2_counterexample :
    rhoCE 0 0 < 1 / 10 ^ 12 ∧ (shProb 2 0 rhoCE (fun _ _ => 1) 1).1 1 = 1 := by
  constructor
  · norm_num [rhoCE]
  · norm_num [shProb, shPsum, shAccOf, shProbClamped, shProbRaw, rhoCE,
      Finset.sum_range_succ, Finset.sum_range_zero]

/-- Witness for the amended C2 at the concrete inputs of the
counterexample: the unguarded quotient is positive, so the step's
probability is positive. -/
theorem C2_witness : 0 < (shProb 2 0 rhoCE (fun _ _ => 1) 1).1 1 :=
  C2_unguarded_division 2 0 1 rhoCE (fun _ _ => 1) 1 (by norm_num)
    (by norm_num) (by norm_num [shProbRaw, rhoCE])

/-! ## Claim C5 -/

lemma trivialProbVec_eq (pst r t : ℕ) (ht : t < pst) (htr : ¬ t = r) :
    trivialProbVec pst r t = fun ist => if ist = t then (1 : ℚ) else 0 := by
  funext ist
  unfold trivialProbVec
  by_cases h : ist = t
  · subst h
    rw [if_pos ⟨ht, htr, rfl⟩, if_pos rfl]
  · rw [if_neg, if_neg h]
    rintro ⟨-, -, h2⟩
    exact h h2

lemma trivialAcc_eq (pst r t : ℕ) (ht : t < pst) (htr : ¬ t = r) (j : ℕ) :
    shAccOf (trivialProbVec pst r t) j = if t < j then 1 else 0 := by
  unfold shAccOf
  rw [trivialProbVec_eq pst r t ht htr]
  rw [Finset.sum_ite_eq' (Finset.range j) t (fun _ => (1 : ℚ))]
  simp [Finset.mem_range]

lemma hopProbTrivial_eq (pst r t : ℕ) (ht : t < pst) (htr : ¬ t = r) :
    hopProbTrivial pst r t =
      (trivialProbVec pst r t, shAccOf (trivialProbVec pst r t)) := by
  have hpsum : shAccOf (trivialProbVec pst r t) pst = 1 := by
    rw [trivialAcc_eq pst r t ht htr pst, if_pos ht]
  unfold hopProbTrivial
  rw [hpsum]
  norm_num

lemma evaluateHopQED_trivial (cfg : SHConfig) (s : SHState) :
    evaluateHopQED cfg true s = recordHopEventQED true s := by
  unfold evaluateHopQED
  rw [if_neg]
  rintro ⟨-, h⟩
  simp at h

lemma recordHopEventQED_diff (lT : Bool) (s : SHState)
    (h : s.rstate ≠ s.rstateOld) :
    recordHopEventQED lT s =
      { s with events := s.events ++
          [if lT then HopEvent.trivialHop else HopEvent.acceptHop] } := by
  unfold recordHopEventQED
  exact if_pos h

/-- C5 (amended): when the cavity-coupled backend flags a trivial crossing
to a target `t` distinct from the running state, the probability is `1` at
`t` and `0` elsewhere; the selector picks `t` for every draw in `(0, 1]`
(the draw `rand = 0.0`, which `random.random()` can return, falls outside
the open-left interval and yields no hop); and a trivial-crossing hop is
never frustrated: `evaluate_hop` skips the entire rescaling/frustration
body, leaving velocities and kinetic energy untouched, and records the
trivial-crossing event. -/
theorem C5_trivial_forced (pst r t b0 : ℕ) (ht : t < pst) (htr : ¬ t = r)
    (cfg : SHConfig) (s : SHState) (hhop : s.lHop = true)
    (hne : s.rstate ≠ s.rstateOld) :
    (hopProbTrivial pst r t).1 t = 1 ∧
    (∀ i, i ≠ t → (hopProbTrivial pst r t).1 i = 0) ∧
    (∀ rand : ℚ, 0 < rand → rand ≤ 1 →
      hopCheck pst r b0 (hopProbTrivial pst r t).2 rand = (true, t, t)) ∧
    (evaluateHopQED cfg true s).vel = s.vel ∧
    (evaluateHopQED cfg true s).ekinQm = s.ekinQm ∧
    (evaluateHopQED cfg true s).lHop = true ∧
    (evaluateHopQED cfg true s).rstate = s.rstate ∧
    (evaluateHopQED cfg true s).events = s.events ++ [HopEvent.trivialHop] := by
  rw [hopProbTrivial_eq pst r t ht htr,
    evaluateHopQED_trivial cfg s, recordHopEventQED_diff true s hne]
  refine ⟨?_, ?_, ?_, rfl, rfl, hhop, rfl, rfl⟩
  · rw [trivialProbVec_eq pst r t ht htr]
    simp
  · intro i hi
    rw [trivialProbVec_eq pst r t ht htr]
    simp [hi]
  · intro rand h0 h1
    have hmono : ∀ i, shAccOf (trivialProbVec pst r t) i ≤
        shAccOf (trivialProbVec pst r t) (i + 1) := by
      intro i
      rw [trivialAcc_eq pst r t ht htr, trivialAcc_eq pst r t ht htr]
      by_cases hc : t < i
      · rw [if_pos hc, if_pos (by omega)]
      · by_cases hc2 : t < i + 1
        · rw [if_neg hc, if_pos hc2]
          norm_num
        · rw [if_neg hc, if_neg hc2]
    have hract : shAccOf (trivialProbVec pst r t) (r + 1) ≤
        shAccOf (trivialProbVec pst r t) r := by
      rw [trivialAcc_eq pst r t ht htr, trivialAcc_eq pst r t ht htr]
      by_cases hc : t < r
      · rw [if_pos (by omega), if_pos hc]
      · rw [if_neg (by omega), if_neg hc]
    refine hopCheck_of_matched hmono hract ht ?_
    constructor
    · rw [trivialAcc_eq pst r t ht htr]
      rw [if_neg (lt_irrefl t)]
      exact h0
    · rw [trivialAcc_eq pst r t ht htr]
      rw [if_pos (Nat.lt_succ_self t)]
      exact h1

/-- Counterexample to C5 as stated ("selected regardless of the random
draw"): with a flagged trivial crossing `0 → 1` the probability at the
target is `1`, yet the legal draw `rand = 0.0` selects nothing — no hop
occurs and the running state stays `0`. -/
theorem C5_counterexample :
    (hopProbTrivial 2 0 1).1 1 = 1 ∧
    hopCheck 2 0 0 (hopProbTrivial 2 0 1).2 0 = (false, 0, 0) := by
  have ht : (1 : ℕ) < 2 := one_lt_two
  have htr : ¬ (1 : ℕ) = 0 := by norm_num
  rw [hopProbTrivial_eq 2 0 1 ht htr]
  constructor
  · rw [trivialProbVec_eq 2 0 1 ht htr]
    simp
  · refine hopCheck_of_none ?_
    intro i _
    rintro ⟨h1, -⟩
    have h2 : (trivialProbVec 2 0 1, shAccOf (trivialProbVec 2 0 1)).2 i =
        shAccOf (trivialProbVec 2 0 1) i := rfl
    rw [h2, trivialAcc_eq 2 0 1 ht htr] at h1
    revert h1
    split_ifs <;> norm_num

/-- Witness for the amended C5: a draw of `1/2` selects the flagged state
`1`, and the trivial-crossing hop `0 → 1` passes through `evaluate_hop`
unfrustrated, appending exactly the trivial-crossing event. -/
theorem C5_witness :
    hopCheck 2 0 0 (hopProbTrivial 2 0 1).2 (1 / 2) = (true, 1, 1) ∧
    (evaluateHopQED cfgEnKeep true sZeroKin).events =
      sZeroKin.events ++ [HopEvent.trivialHop] := by
  have h := C5_trivial_forced 2 0 1 0 one_lt_two (by norm_num) cfgEnKeep
    sZeroKin rfl (by simp [sZeroKin])
  exact ⟨h.2.2.1 (1 / 2) (by norm_num) (by norm_num), h.2.2.2.2.2.2.2⟩

/-! ## Claim C3 -/

/-- C3: in "augment" mode, a selected hop whose QM kinetic energy strictly
exceeds the gap is never frustrated, even with a negative discriminant; in
that case the velocities are rescaled multiplicatively by the isotropic
factor `sqrt(1 - ΔE/E_kin)`. -/
theorem C3_augment_fallback_accepts (cfg : SHConfig) (s : SHState)
    (haug : cfg.velRescale = VelRescale.augment) (hhop : s.lHop = true)
    (hdet : (quadCoeffs cfg s).2.2 < 0) (hekin : potDiff s < s.ekinQm) :
    (evaluateHop cfg s).lHop = true ∧
    (evaluateHop cfg s).lReject = false ∧
    (evaluateHop cfg s).rstate = s.rstate ∧
    (evaluateHop cfg s).vel = fun i k =>
      if i < s.nat then Real.sqrt (1 - potDiff s / s.ekinQm) * s.vel i k
      else s.vel i k := by
  have hacc : ¬ hopRejected cfg s := by
    rintro ⟨-, h2⟩
    exact h2 ⟨haug, hekin⟩
  have hiso : isotropicAccept cfg s := Or.inr ⟨hdet, haug⟩
  have hx : accFactor cfg s = Real.sqrt (1 - potDiff s / s.ekinQm) := by
    unfold accFactor
    rw [if_pos hiso]
  have hvel : accVel cfg s = fun i k =>
      if i < s.nat then Real.sqrt (1 - potDiff s / s.ekinQm) * s.vel i k
      else s.vel i k := by
    unfold accVel
    rw [haug, hx]
    show (if 0 < (quadCoeffs cfg s).2.2 ∨ s.ekinQm < potDiff s then _ else _) = _
    rw [if_neg]
    rintro (h | h)
    · exact lt_asymm hdet h
    · exact lt_asymm hekin h
  rw [evaluateHop_of_hop cfg s hhop, hopBody_of_accepted cfg s hacc]
  refine ⟨?_, ?_, ?_, ?_⟩
  · rw [recordHopEvent_lHop]
    exact hhop
  · rw [recordHopEvent_lReject]
  · rw [recordHopEvent_rstate]
  · rw [recordHopEvent_vel]
    exact hvel

/-- A selected hop `0 → 1` in a one-atom system with coupling `d = (1,0,0)`
orthogonal to the velocity `v = (0,1,0)`: the quadratic has `a = 1`,
`b = 0`, gap `1/4` and discriminant `-2 < 0`, while `E_kin = 1/2 > 1/4`. -/
noncomputable def sAugFall : SHState :=
  { nat := 1
    mass := fun _ => 1
    nac := fun _ _ _ k => if k = 0 then 1 else 0
    energies := fun i => if i = 0 then 0 else 1 / 4
    vel := fun _ k => if k = 1 then 1 else 0
    ekinQm := 1 / 2
    rstate := 1
    rstateOld := 0
    lHop := true
    lReject := false
    boList0 := 1
    events := [] }

/-- Witness for C3 at the concrete negative-discriminant input. -/
theorem C3_witness :
    (evaluateHop cfgAugKeep sAugFall).lHop = true ∧
    (evaluateHop cfgAugKeep sAugFall).lReject = false := by
  have hdet : (quadCoeffs cfgAugKeep sAugFall).2.2 < 0 := by
    norm_num [quadCoeffs, cfgAugKeep, sAugFall, dot3, potDiff,
      Finset.sum_range_succ, Finset.sum_range_zero]
  have hekin : potDiff sAugFall < sAugFall.ekinQm := by
    norm_num [potDiff, sAugFall]
  have h := C3_augment_fallback_accepts cfgAugKeep sAugFall rfl rfl hdet hekin
  exact ⟨h.1, h.2.1⟩

/-! ## Claim C9 -/

lemma rejEvents_length (cfg : SHConfig) (s : SHState) :
    (rejEvents cfg s).length = if s.ekinQm < potDiff s then 2 else 1 := by
  unfold rejEvents
  cases hcv : cfg.velReject <;> split_ifs <;> simp

open Classical in
lemma accEvents_length (cfg : SHConfig) (s : SHState) :
    (accEvents cfg s).length =
      if isotropicAccept cfg s ∧ (quadCoeffs cfg s).2.2 < 0 then 1 else 0 := by
  unfold accEvents
  split_ifs <;> simp

lemma recordHopEvent_events (s : SHState) :
    (recordHopEvent s).events =
      if s.rstate ≠ s.rstateOld then s.events ++ [HopEvent.acceptHop]
      else s.events := by
  unfold recordHopEvent
  split <;> rfl

open Classical in
/-- C9 (amended): a silent step (no hop selected) appends no event line;
a selected hop appends exactly one line, except that a frustrated hop with
`E_kin < ΔE` appends two (the insufficient-energy line plus the
rejection-policy line) and an accepted "augment" fallback with `det < 0`
appends two (the fallback note plus the accept line). -/
theorem C9_event_lines (cfg : SHConfig) (s : SHState) :
    (s.lHop = false → s.rstate = s.rstateOld →
      (evaluateHop cfg s).events = s.events) ∧
    (s.lHop = true → s.rstate ≠ s.rstateOld →
      (evaluateHop cfg s).events.length = s.events.length +
        (if hopRejected cfg s then
           (if s.ekinQm < potDiff s then 2 else 1)
         else (if (quadCoeffs cfg s).2.2 < 0 then 2 else 1))) := by
  constructor
  · intro hhop hst
    rw [evaluateHop_of_no_hop cfg s hhop, recordHopEvent_same s hst]
  · intro hhop hne
    rw [evaluateHop_of_hop cfg s hhop]
    by_cases hrej : hopRejected cfg s
    · rw [hopBody_of_rejected cfg s hrej, recordHopEvent_same _ rfl,
        if_pos hrej]
      show (s.events ++ rejEvents cfg s).length = _
      rw [List.length_append, rejEvents_length]
    · rw [hopBody_of_accepted cfg s hrej, recordHopEvent_events,
        if_pos hne, if_neg hrej]
      show (s.events ++ accEvents cfg s ++ [HopEvent.acceptHop]).length = _
      rw [List.length_append, List.length_append, accEvents_length]
      by_cases hdet : (quadCoeffs cfg s).2.2 < 0
      · have haug : cfg.velRescale = VelRescale.augment ∧
            potDiff s < s.ekinQm := by
          by_contra hc
          exact hrej ⟨Or.inr (Or.inr hdet), hc⟩
        rw [if_pos ⟨Or.inr ⟨hdet, haug.1⟩, hdet⟩, if_pos hdet]
        simp [Nat.add_assoc]
      · rw [if_neg (fun hc => hdet hc.2), if_neg hdet]
        simp

/-- Counterexample to C9 as stated ("exactly one event line"): a frustrated
`0 → 1` hop with `E_kin = 0 < ΔE = 1` under "momentum"/"keep" appends two
event lines to an empty log. -/
theorem C9_counterexample :
    (evaluateHop cfgMomKeep sZeroKin).lReject = true ∧
    sZeroKin.events.length = 0 ∧
    (evaluateHop cfgMomKeep sZeroKin).events.length = 2 := by
  have hrej : hopRejected cfgMomKeep sZeroKin := by
    constructor
    · refine Or.inr (Or.inl ?_)
      show sZeroKin.ekinQm < potDiff sZeroKin
      norm_num [potDiff, sZeroKin]
    · rintro ⟨h1, -⟩
      exact absurd h1 (by simp [cfgMomKeep])
  rw [evaluateHop_of_hop cfgMomKeep sZeroKin rfl,
    hopBody_of_rejected cfgMomKeep sZeroKin hrej, recordHopEvent_same _ rfl]
  refine ⟨rfl, rfl, ?_⟩
  show (sZeroKin.events ++ rejEvents cfgMomKeep sZeroKin).length = 2
  rw [List.length_append, rejEvents_length, if_pos]
  · rfl
  · show sZeroKin.ekinQm < potDiff sZeroKin
    norm_num [potDiff, sZeroKin]

/-- Witness for the amended C9: a silent step appends no event line. -/
theorem C9_witness : (evaluateHop cfgMomKeep sIdle).events = sIdle.events :=
  (C9_event_lines cfgMomKeep sIdle).1 rfl rfl

/-! ## Claim C1 -/

/-- A selected hop `0 → 1` between degenerate states (`ΔE = 0`) in a
one-atom system with unit mass, coupling `d = (1,0,0)` orthogonal to the
velocity `v = (0,1,0)`: in "augment" mode the quadratic is `a = 1`,
`b = 0`, `c = 0`, so `det = 0` exactly and the root is `x = 0`, while the
pre-hop QM kinetic energy is `1/2`. -/
noncomputable def sDetZero : SHState :=
  { nat := 1
    mass := fun _ => 1
    nac := fun _ _ _ k => if k = 0 then 1 else 0
    energies := fun _ => 0
    vel := fun _ k => if k = 1 then 1 else 0
    ekinQm := 1 / 2
    rstate := 1
    rstateOld := 0
    lHop := true
    lReject := false
    boList0 := 1
    events := [] }

/-- C1 fails on the code at the `det = 0` boundary in "augment" mode: the
hop is accepted with a real (double) root, yet the velocity block tests
`det > 0` (src/mqc/sh.py line 344) instead of `det ≥ 0`, so it applies the
*multiplicative* fallback with the additive quadratic root `x = 0`, zeroing
the velocities: the post-hop total energy `0` differs from the pre-hop
total energy `1/2`.  This theorem evaluates the embedded code at that
failing input. -/
theorem C1_augment_det_zero_violation :
    (quadCoeffs cfgAugKeep sDetZero).2.2 = 0 ∧
    sDetZero.ekinQm = kineticQm sDetZero.nat sDetZero.mass sDetZero.vel ∧
    (evaluateHop cfgAugKeep sDetZero).lHop = true ∧
    (evaluateHop cfgAugKeep sDetZero).lReject = false ∧
    (evaluateHop cfgAugKeep sDetZero).ekinQm +
        sDetZero.energies (evaluateHop cfgAugKeep sDetZero).rstate ≠
      sDetZero.ekinQm + sDetZero.energies sDetZero.rstateOld := by
  have hq : quadCoeffs cfgAugKeep sDetZero = (1, 0, 0) := by
    norm_num [quadCoeffs, cfgAugKeep, sDetZero, dot3, potDiff,
      Finset.sum_range_succ, Finset.sum_range_zero, Prod.ext_iff]
  have hpd : potDiff sDetZero = 0 := by
    norm_num [potDiff, sDetZero]
  have hacc : ¬ hopRejected cfgAugKeep sDetZero := by
    rintro ⟨h1 | h2 | h3, -⟩
    · exact absurd h1.1 (by simp [cfgAugKeep])
    · rw [hpd] at h2
      revert h2
      show ¬ sDetZero.ekinQm < 0
      norm_num [sDetZero]
    · rw [hq] at h3
      exact absurd h3 (lt_irrefl 0)
  have hiso : ¬ isotropicAccept cfgAugKeep sDetZero := by
    rintro (h | ⟨hd, -⟩)
    · exact absurd h (by simp [cfgAugKeep])
    · rw [hq] at hd
      exact absurd hd (lt_irrefl 0)
  have hx : accFactor cfgAugKeep sDetZero = 0 := by
    unfold accFactor
    rw [if_neg hiso, hq]
    norm_num [Real.sqrt_zero]
  have hvel : accVel cfgAugKeep sDetZero = fun i k =>
      if i < sDetZero.nat then 0 * sDetZero.vel i k else sDetZero.vel i k := by
    unfold accVel
    have hmode : cfgAugKeep.velRescale = VelRescale.augment := rfl
    rw [hmode, hx, hq, hpd]
    show (if (0 : ℝ) < 0 ∨ sDetZero.ekinQm < 0 then _ else _) = _
    rw [if_neg]
    rintro (h | h)
    · exact absurd h (lt_irrefl 0)
    · revert h
      show ¬ sDetZero.ekinQm < 0
      norm_num [sDetZero]
  have hkin : kineticQm sDetZero.nat sDetZero.mass
      (accVel cfgAugKeep sDetZero) = 0 := by
    rw [hvel]
    norm_num [kineticQm, dot3, sDetZero, Finset.sum_range_succ,
      Finset.sum_range_zero]
  rw [evaluateHop_of_hop cfgAugKeep sDetZero rfl,
    hopBody_of_accepted cfgAugKeep sDetZero hacc]
  refine ⟨by rw [hq], ?_, ?_, ?_, ?_⟩
  · norm_num [kineticQm, dot3, sDetZero, Finset.sum_range_succ,
      Finset.sum_range_zero]
  · rw [recordHopEvent_lHop]
    exact rfl
  · rw [recordHopEvent_lReject]
  · rw [recordHopEvent_ekinQm, recordHopEvent_rstate]
    show kineticQm sDetZero.nat sDetZero.mass (accVel cfgAugKeep sDetZero) +
        sDetZero.energies sDetZero.rstate ≠
      sDetZero.ekinQm + sDetZero.energies sDetZero.rstateOld
    rw [hkin]
    norm_num [sDetZero]

/-! ## Energy conservation away from the `det = 0` augment boundary

Supporting development for C1: the chosen quadratic root really solves
`a·x² + b·x + c = 0`, and in "momentum" mode an accepted hop with a real
root conserves the total energy exactly — the violation above is confined
to the inconsistent `det = 0` boundary of "augment". -/

lemma quadRoot_solves (a b c : ℝ) (ha : a ≠ 0)
    (hdet : 0 ≤ b ^ 2 - 4 * a * c) (x : ℝ)
    (hx : x = (-b + Real.sqrt (b ^ 2 - 4 * a * c)) / (2 * a) ∨
      x = (-b - Real.sqrt (b ^ 2 - 4 * a * c)) / (2 * a)) :
    a * x ^ 2 + b * x + c = 0 := by
  have hs : Real.sqrt (b ^ 2 - 4 * a * c) ^ 2 = b ^ 2 - 4 * a * c :=
    Real.sq_sqrt hdet
  rcases hx with h | h <;> subst h <;>
    generalize hgen : Real.sqrt (b ^ 2 - 4 * a * c) = s at hs ⊢ <;>
    field_simp <;> linear_combination (2 * a ^ 2 : ℝ) * hs

lemma kineticQm_momentum_update (nat : ℕ) (mass : ℕ → ℝ)
    (d vel : ℕ → ℕ → ℝ) (x : ℝ) (hm : ∀ i, i < nat → mass i ≠ 0) :
    kineticQm nat mass
      (fun i k => if i < nat then vel i k + x * d i k / mass i else vel i k) =
    kineticQm nat mass vel
      + x * ∑ i in Finset.range nat, dot3 (d i) (vel i)
      + x ^ 2 / 2 *
        ∑ i in Finset.range nat, 1 / mass i * dot3 (d i) (d i) := by
  unfold kineticQm dot3
  rw [Finset.mul_sum, Finset.mul_sum, ← Finset.sum_add_distrib,
    ← Finset.sum_add_distrib]
  refine Finset.sum_congr rfl ?_
  intro i hi
  have hmi := hm i (Finset.mem_range.mp hi)
  simp only [if_pos (Finset.mem_range.mp hi)]
  simp only [Finset.sum_range_succ, Finset.sum_range_zero]
  field_simp
  ring

lemma momentum_accepted_hop_conserves_energy (cfg : SHConfig) (s : SHState)
    (hmom : cfg.velRescale = VelRescale.momentum) (hhop : s.lHop = true)
    (hacc : ¬ hopRejected cfg s) (hdet : 0 ≤ (quadCoeffs cfg s).2.2)
    (ha : (quadCoeffs cfg s).1 ≠ 0)
    (hm : ∀ i, i < s.nat → s.mass i ≠ 0)
    (hekin : s.ekinQm = kineticQm s.nat s.mass s.vel) :
    (evaluateHop cfg s).ekinQm +
        s.energies (evaluateHop cfg s).rstate =
      s.ekinQm + s.energies s.rstateOld := by
  have hq : quadCoeffs cfg s =
      (∑ i in Finset.range s.nat, 1 / s.mass i *
          dot3 (s.nac s.rstateOld s.rstate i) (s.nac s.rstateOld s.rstate i),
        2 * ∑ i in Finset.range s.nat,
          dot3 (s.nac s.rstateOld s.rstate i) (s.vel i),
        (2 * ∑ i in Finset.range s.nat,
          dot3 (s.nac s.rstateOld s.rstate i) (s.vel i)) ^ 2 -
          4 * (∑ i in Finset.range s.nat, 1 / s.mass i *
            dot3 (s.nac s.rstateOld s.rstate i) (s.nac s.rstateOld s.rstate i))
            * (2 * potDiff s)) := by
    unfold quadCoeffs
    rw [hmom]
  have hiso : ¬ isotropicAccept cfg s := by
    rintro (h | ⟨-, h⟩) <;> rw [hmom] at h <;> exact VelRescale.noConfusion h
  have hroot : (quadCoeffs cfg s).1 * accFactor cfg s ^ 2 +
      (quadCoeffs cfg s).2.1 * accFactor cfg s + 2 * potDiff s = 0 := by
    refine quadRoot_solves _ _ _ ha ?_ _ ?_
    · have : (quadCoeffs cfg s).2.2 =
          (quadCoeffs cfg s).2.1 ^ 2 -
            4 * (quadCoeffs cfg s).1 * (2 * potDiff s) := by
        rw [hq]
      rw [← this]
      exact hdet
    · unfold accFactor
      rw [if_neg hiso]
      have hdd : (quadCoeffs cfg s).2.2 =
          (quadCoeffs cfg s).2.1 ^ 2 -
            4 * (quadCoeffs cfg s).1 * (2 * potDiff s) := by
        rw [hq]
      rw [hdd]
      split_ifs with hb
      · exact Or.inr rfl
      · exact Or.inl rfl
  have hvel : accVel cfg s = fun i k =>
      if i < s.nat then
        s.vel i k + accFactor cfg s * s.nac s.rstateOld s.rstate i k / s.mass i
      else s.vel i k := by
    unfold accVel
    rw [hmom]
    exact rfl
  have hkin : kineticQm s.nat s.mass (accVel cfg s) =
      kineticQm s.nat s.mass s.vel - potDiff s := by
    rw [hvel, kineticQm_momentum_update s.nat s.mass
      (s.nac s.rstateOld s.rstate) s.vel (accFactor cfg s) hm]
    have hb : (quadCoeffs cfg s).2.1 =
        2 * ∑ i in Finset.range s.nat,
          dot3 (s.nac s.rstateOld s.rstate i) (s.vel i) := by
      rw [hq]
    have ha2 : (quadCoeffs cfg s).1 =
        ∑ i in Finset.range s.nat, 1 / s.mass i *
          dot3 (s.nac s.rstateOld s.rstate i) (s.nac s.rstateOld s.rstate i) := by
      rw [hq]
    rw [← ha2]
    have hsum : ∑ i in Finset.range s.nat,
        dot3 (s.nac s.rstateOld s.rstate i) (s.vel i) =
        (quadCoeffs cfg s).2.1 / 2 := by
      rw [hb]
      ring
    rw [hsum]
    linear_combination hroot / 2
  rw [evaluateHop_of_hop cfg s hhop, hopBody_of_accepted cfg s hacc,
    recordHopEvent_ekinQm, recordHopEvent_rstate]
  show kineticQm s.nat s.mass (accVel cfg s) + s.energies s.rstate =
    s.ekinQm + s.energies s.rstateOld
  rw [hkin, hekin]
  unfold potDiff
  ring

/-! ## Claim C8 -/

lemma edcRho_diag_re (pst r : ℕ) (energies : ℕ → ℝ) (coef : ℕ → ℂ)
    (ekin dt c rhoRR : ℝ) (i : ℕ) :
    (edcRho pst r energies coef ekin dt c rhoRR i i).re =
      Complex.normSq (edcCoef pst r energies coef ekin dt c rhoRR i) := by
  unfold edcRho
  rw [← Complex.normSq_eq_conj_mul_self, Complex.ofReal_re]

lemma edcExpTau_pos (r : ℕ) (energies : ℕ → ℝ) (ekin dt c : ℝ) (ist : ℕ) :
    0 < edcExpTau r energies ekin dt c ist := by
  unfold edcExpTau
  split_ifs
  · exact one_pos
  · exact Real.exp_pos _

lemma edcExpTau_le_one (r : ℕ) (energies : ℕ → ℝ) (ekin dt c : ℝ)
    (hdt : 0 ≤ dt) (hc : 0 ≤ 1 + c / ekin) (ist : ℕ) :
    edcExpTau r energies ekin dt c ist ≤ 1 := by
  unfold edcExpTau
  split_ifs
  · exact le_refl 1
  · have htau : 0 ≤ (1 + c / ekin) / |energies ist - energies r| :=
      div_nonneg hc (abs_nonneg _)
    have hdiv : 0 ≤ dt / ((1 + c / ekin) / |energies ist - energies r|) :=
      div_nonneg hdt htau
    have hneg : -dt / ((1 + c / ekin) / |energies ist - energies r|) ≤ 0 := by
      rw [neg_div]
      linarith
    calc Real.exp (-dt / ((1 + c / ekin) / |energies ist - energies r|))
        ≤ Real.exp 0 := Real.exp_le_exp.mpr hneg
      _ = 1 := Real.exp_zero

lemma edcRhoUpdate_ge (pst r : ℕ) (energies : ℕ → ℝ) (coef : ℕ → ℂ)
    (ekin dt c : ℝ) (hr : r < pst) (hdt : 0 ≤ dt) (hc : 0 ≤ 1 + c / ekin)
    (hnorm : ∑ i in Finset.range pst, Complex.normSq (coef i) ≤ 1) :
    Complex.normSq (coef r) ≤ edcRhoUpdate pst r energies coef ekin dt c := by
  unfold edcRhoUpdate
  have h1 : ∑ ist in (Finset.range pst).erase r,
      Complex.normSq (coef ist * ((edcExpTau r energies ekin dt c ist : ℝ) : ℂ)) ≤
      ∑ ist in (Finset.range pst).erase r, Complex.normSq (coef ist) := by
    refine Finset.sum_le_sum ?_
    intro i _
    rw [Complex.normSq_mul, Complex.normSq_ofReal]
    have he1 := edcExpTau_le_one r energies ekin dt c hdt hc i
    have he0 := edcExpTau_pos r energies ekin dt c i
    have hsq : edcExpTau r energies ekin dt c i *
        edcExpTau r energies ekin dt c i ≤ 1 :=
      mul_le_one₀ he1 (le_of_lt he0) he1
    calc Complex.normSq (coef i) * (edcExpTau r energies ekin dt c i *
          edcExpTau r energies ekin dt c i)
        ≤ Complex.normSq (coef i) * 1 :=
          mul_le_mul_of_nonneg_left hsq (Complex.normSq_nonneg _)
      _ = Complex.normSq (coef i) := mul_one _
  have h2 : Complex.normSq (coef r) +
      ∑ ist in (Finset.range pst).erase r, Complex.normSq (coef ist) =
      ∑ i in Finset.range pst, Complex.normSq (coef i) :=
    Finset.add_sum_erase (Finset.range pst) (fun i => Complex.normSq (coef i))
      (Finset.mem_range.mpr hr)
  linarith

/-- C8 (amended): with positive QM kinetic energy, non-negative time step,
an energy parameter satisfying `1 + C/E_kin ≥ 0` (any non-negative `C`),
and coefficients consistent with the stored density matrix
(`rho[r,r] = |c_r|² > 0`, total population at most `1`), the EDC correction
yields a density matrix whose populations sum exactly to `1`, for any
energies and any such coefficients. -/
theorem C8_edc_population (pst r : ℕ) (energies : ℕ → ℝ) (coef : ℕ → ℂ)
    (ekin dt c rhoRR : ℝ) (hr : r < pst) (hdt : 0 ≤ dt)
    (hc : 0 ≤ 1 + c / ekin) (hrho : rhoRR = Complex.normSq (coef r))
    (hpos : 0 < rhoRR)
    (hnorm : ∑ i in Finset.range pst, Complex.normSq (coef i) ≤ 1) :
    edcPopulation pst r energies coef ekin dt c rhoRR = 1 := by
  have hu : 0 < edcRhoUpdate pst r energies coef ekin dt c :=
    lt_of_lt_of_le (hrho ▸ hpos)
      (edcRhoUpdate_ge pst r energies coef ekin dt c hr hdt hc hnorm)
  have hratio : 0 ≤ edcRhoUpdate pst r energies coef ekin dt c / rhoRR :=
    div_nonneg (le_of_lt hu) (le_of_lt hpos)
  have hcr : Complex.normSq (edcCoef pst r energies coef ekin dt c rhoRR r) =
      edcRhoUpdate pst r energies coef ekin dt c := by
    unfold edcCoef
    rw [if_pos rfl, Complex.normSq_mul]
    unfold csqrtReal
    rw [if_pos hratio, Complex.normSq_ofReal,
      Real.mul_self_sqrt hratio, hrho]
    rw [mul_div_cancel₀]
    exact ne_of_gt (hrho ▸ hpos)
  unfold edcPopulation
  rw [Finset.sum_congr rfl
    (fun i _ => edcRho_diag_re pst r energies coef ekin dt c rhoRR i)]
  rw [← Finset.add_sum_erase (Finset.range pst)
    (fun i => Complex.normSq (edcCoef pst r energies coef ekin dt c rhoRR i))
    (Finset.mem_range.mpr hr)]
  have hco : ∀ i ∈ (Finset.range pst).erase r,
      Complex.normSq (edcCoef pst r energies coef ekin dt c rhoRR i) =
      Complex.normSq (coef i *
        ((edcExpTau r energies ekin dt c i : ℝ) : ℂ)) := by
    intro i hi
    obtain ⟨hir, hilt⟩ := Finset.mem_erase.mp hi
    unfold edcCoef
    rw [if_neg hir, if_pos (Finset.mem_range.mp hilt)]
  rw [Finset.sum_congr rfl hco, hcr]
  have hdef : edcRhoUpdate pst r energies coef ekin dt c =
      1 - ∑ ist in (Finset.range pst).erase r, Complex.normSq (coef ist *
        ((edcExpTau r energies ekin dt c ist : ℝ) : ℂ)) := rfl
  rw [hdef]
  ring

/-- A pure-state coefficient vector: `1` on state `0`, `0` elsewhere. -/
noncomputable def coefUnit : ℕ → ℂ := fun i => if i = 0 then 1 else 0

/-- Witness for the amended C8: two states, unit kinetic energy, default-like
parameter `C = 0`, pure state on the running state — populations sum to 1. -/
theorem C8_witness : edcPopulation 2 0 (fun _ => 0) coefUnit 1 1 0 1 = 1 := by
  refine C8_edc_population 2 0 (fun _ => 0) coefUnit 1 1 0 1 two_pos
    zero_le_one (by norm_num) ?_ one_pos ?_
  · simp [coefUnit]
  · norm_num [coefUnit, Finset.sum_range_succ]

/-- An equal superposition: both coefficients `√(1/2)`. -/
noncomputable def coefCE : ℕ → ℂ := fun _ => ((Real.sqrt (1 / 2) : ℝ) : ℂ)

/-- Energies `0` and `1` (unit gap between the two states). -/
noncomputable def enCE : ℕ → ℝ := fun i => if i = 0 then 0 else 1

/-- Counterexample to C8 as stated ("for any configured energy parameter"):
with the negative energy parameter `C = -2` and `E_kin = 1 > 0`, the decay
factor is `exp(+1) > 1`, the non-active population grows, `rho_update`
becomes negative, and `np.sqrt` of the negative complex ratio returns an
imaginary number: the rebuilt populations sum to `e² - 1 ≈ 6.39`, not `1`,
for a perfectly normalized input state. -/
theorem C8_counterexample :
    edcPopulation 2 0 enCE coefCE 1 1 (-2) (1 / 2) ≠ 1 := by
  have he2 : 2 ≤ Real.exp 1 := by
    have := Real.add_one_le_exp 1
    linarith
  have hhalf : Complex.normSq ((Real.sqrt (1 / 2) : ℝ) : ℂ) = 1 / 2 := by
    rw [Complex.normSq_ofReal, Real.mul_self_sqrt (by norm_num)]
  have htau1 : edcExpTau 0 enCE 1 1 (-2) 1 = Real.exp 1 := by
    unfold edcExpTau
    rw [if_neg one_ne_zero]
    norm_num [enCE]
  have herase : (Finset.range 2).erase 0 = {1} := by decide
  have hu : edcRhoUpdate 2 0 enCE coefCE 1 1 (-2) =
      1 - 1 / 2 * (Real.exp 1 * Real.exp 1) := by
    unfold edcRhoUpdate
    rw [herase, Finset.sum_singleton, htau1, Complex.normSq_mul]
    simp only [coefCE]
    rw [hhalf, Complex.normSq_ofReal]
  have hratio : edcRhoUpdate 2 0 enCE coefCE 1 1 (-2) / (1 / 2) < 0 := by
    rw [hu]
    apply div_neg_of_neg_of_pos _ (by norm_num)
    nlinarith
  have hc0 : Complex.normSq (edcCoef 2 0 enCE coefCE 1 1 (-2) (1 / 2) 0) =
      1 / 2 * (Real.exp 1 * Real.exp 1 - 2) := by
    unfold edcCoef
    rw [if_pos rfl]
    unfold csqrtReal
    rw [if_neg (not_le.mpr hratio)]
    rw [Complex.normSq_mul, Complex.normSq_mul, Complex.normSq_I,
      Complex.normSq_ofReal]
    simp only [coefCE]
    rw [hhalf, Real.mul_self_sqrt (le_of_lt (neg_pos.mpr hratio)), hu]
    ring
  have hc1 : Complex.normSq (edcCoef 2 0 enCE coefCE 1 1 (-2) (1 / 2) 1) =
      1 / 2 * (Real.exp 1 * Real.exp 1) := by
    unfold edcCoef
    rw [if_neg one_ne_zero, if_pos one_lt_two, htau1, Complex.normSq_mul]
    simp only [coefCE]
    rw [hhalf, Complex.normSq_ofReal]
  intro hcontra
  unfold edcPopulation at hcontra
  rw [Finset.sum_range_succ, Finset.sum_range_one,
    edcRho_diag_re, edcRho_diag_re, hc0, hc1] at hcontra
  nlinarith

end UnixMD
